import Mathlib

/-!
Shallow embedding of `src/dataset.py` (CRNN.tf2 data pipeline) and proofs of
the specification claims about it.

Conventions of the embedding:
* Python `int` is `Int`; sequences are `List`s.
* A Python function that can raise an uncaught exception is embedded as a
  function into `Option`; `none` models "an exception propagates to the
  caller".
* `mapper`/`table` on the decode side is a Python list of strings, indexed
  with Python list-index semantics (negative indices count from the end,
  out-of-range indices raise `IndexError`).
* The TensorFlow lookup table built from the vocabulary file
  (`tf.lookup.TextFileInitializer` with `WHOLE_LINE` keys and `LINE_NUMBER`
  values, `default_value=blank_index`) is embedded as first-index lookup in
  the list of the file's lines, with the blank index as default.
-/

set_option autoImplicit false

namespace CRNN

/-- Python list indexing `table[i]`: valid for `-len ≤ i < len`, negative
indices count from the end; anything else raises `IndexError` (`none`). -/
def pyGet (table : List String) (i : Int) : Option String :=
  if h : 0 ≤ i ∧ i < table.length then
    some (table.get ⟨i.toNat, by
      rcases h with ⟨h0, h1⟩
      omega⟩)
  else if h' : -(table.length : Int) ≤ i ∧ i < 0 then
    some (table.get ⟨(i + table.length).toNat, by
      rcases h' with ⟨h0, h1⟩
      omega⟩)
  else
    none

/-- Inner loop of `map_to_chars` (src/dataset.py lines 105-115), one line of
ids.  `prev` is the running `previous_char` variable (initialised to `-1` by
the caller).  Returns the decoded text, or `none` when `table[char_index]`
raises. -/
def decodeLineAux (table : List String) (blank : Int) (merge : Bool) :
    Int → List Int → Option String
  | _, [] => some ""
  | prev, c :: rest =>
    if merge = true ∧ c = prev then
      decodeLineAux table blank merge prev rest
    else if c = blank then
      decodeLineAux table blank merge c rest
    else
      match pyGet table c with
      | none => none
      | some s => Option.map (fun t => s ++ t) (decodeLineAux table blank merge c rest)

/-- Instrumented variant of `decodeLineAux` recording the string contributed
by each input position (merged repeats and blanks contribute `""`). -/
def decodeLineSteps (table : List String) (blank : Int) (merge : Bool) :
    Int → List Int → Option (List String)
  | _, [] => some []
  | prev, c :: rest =>
    if merge = true ∧ c = prev then
      Option.map (fun l => "" :: l) (decodeLineSteps table blank merge prev rest)
    else if c = blank then
      Option.map (fun l => "" :: l) (decodeLineSteps table blank merge c rest)
    else
      match pyGet table c with
      | none => none
      | some s => Option.map (fun l => s :: l) (decodeLineSteps table blank merge c rest)

/-- The function `map_to_chars` (src/dataset.py lines 91-116): decode every line of ids
into a string; `none` models an uncaught lookup exception. -/
def map_to_chars (inputs : List (List Int)) (table : List String)
    (blank : Int := 0) (merge : Bool := false) : Option (List String) :=
  match inputs with
  | [] => some []
  | line :: rest =>
    match decodeLineAux table blank merge (-1) line,
          map_to_chars rest table blank merge with
    | some t, some ls => some (t :: ls)
    | _, _ => none

/-- Lookup in the vocabulary table built by `OCRDataLoader.__init__`
(src/dataset.py lines 24-30): the key is a whole line of the table file, the
value its 0-based line number, and absent keys map to `blank_index`. -/
def tableLookup (vocab : List String) (blank : Int) (key : String) : Int :=
  match vocab.findIdx? (· == key) with
  | some i => (i : Int)
  | none => blank

/-- Label encoding of `OCRDataLoader._convert_label` (src/dataset.py lines
76-81): split the label into unicode characters and map each through the
vocabulary table. -/
def encodeLabel (vocab : List String) (blank : Int) (label : String) : List Int :=
  label.data.map (fun c => tableLookup vocab blank c.toString)

/-- Concatenation of per-position contributions into the decoded text. -/
def joinAll : List String → String
  | [] => ""
  | s :: l => s ++ joinAll l

/-- Sparse tensor over a 2-D dense shape, stored as
(indices, values, dense_shape) like `tf.SparseTensor`. -/
structure SparseTensor where
  indices : List (Nat × Nat)
  values : List Int
  denseShape : Nat × Nat

/-- Model of `tf.sparse.to_dense` with a default fill value: materialise the matrix
of the declared dense shape, filling absent positions with `d`. -/
def sparseToDense (sp : SparseTensor) (d : Int) : List (List Int) :=
  (List.range sp.denseShape.1).map (fun i =>
    (List.range sp.denseShape.2).map (fun j =>
      match (sp.indices.zip sp.values).find? (fun e => e.1 == (i, j)) with
      | some e => e.2
      | none => d))

/-- Exact-match counting loop of `map_and_count` (src/dataset.py lines
123-126): `zip` pairs rows by position and stops at the shorter side. -/
def countMatches : List String → List String → Nat
  | x :: xs, y :: ys => (if x = y then 1 else 0) + countMatches xs ys
  | _, _ => 0

/-- The function `map_and_count` (src/dataset.py lines 118-127): densify the first
decoded sparse tensor and the ground truth with `blank_index` as fill value,
decode every row of both, and count exact row matches.  `none` models an
uncaught exception (`decoded[0]` on an empty list, or a decode lookup
error). -/
def map_and_count (decoded : List SparseTensor) (Y : SparseTensor)
    (mapper : List String) (blank : Int := 0) (merge : Bool := false) :
    Option Nat :=
  match decoded with
  | [] => none
  | d0 :: _ =>
    match map_to_chars (sparseToDense d0 blank) mapper blank merge,
          map_to_chars (sparseToDense Y blank) mapper blank merge with
    | some ds, some ys => some (countMatches ds ys)
    | _, _ => none

/-- Fuel-driven batching loop: group consecutive elements into chunks of
`bs`, the final chunk possibly smaller, as `tf.data.Dataset.batch` does. -/
def chunkGo {β : Type} (bs : Nat) : Nat → List β → List (List β)
  | 0, _ => []
  | _, [] => []
  | fuel + 1, x :: xs =>
    (x :: xs.take (bs - 1)) :: chunkGo bs fuel (xs.drop (bs - 1))

/-- Batching of a whole list (fuel = its length). -/
def chunkList {β : Type} (bs : Nat) (l : List β) : List (List β) :=
  chunkGo bs l.length l

/-- The `tf.data` pipeline assembled by `OCRDataLoader.__init__`
(src/dataset.py lines 32-43) with `shuffle=False` and `repeat=1`: map each
(image path, label) sample through decode-and-resize, drop samples whose
image decoding raises (`ignore_errors`), batch the survivors, then convert
each batch's labels to id sequences.  The image decoder is opaque (`I` is
the image type, `decodeResize` the decode-and-resize primitive). -/
def ocrBatches {I : Type} (decodeResize : String → Option I)
    (vocab : List String) (blank : Int) (batchSize : Nat)
    (samples : List (String × String)) : List (List (I × List Int)) :=
  (chunkList batchSize
      (samples.filterMap (fun s => (decodeResize s.1).map (fun img => (img, s.2))))).map
    (fun b => b.map (fun p => (p.1, encodeLabel vocab blank p.2)))

/-- Python whitespace, as recognised by `str.strip` and `str.split`. -/
def isPySpace (c : Char) : Bool :=
  c = ' ' ∨ c = '\t' ∨ c = '\n' ∨ c = '\r' ∨ c = '\x0b' ∨ c = '\x0c'

/-- Accumulator loop of Python `str.split()` with no separator: split on
whitespace runs, producing no empty fields. -/
def splitWsAux : List Char → List Char → List String
  | [], acc => if acc.isEmpty then [] else [String.mk acc.reverse]
  | c :: cs, acc =>
    if isPySpace c then
      (if acc.isEmpty then [] else [String.mk acc.reverse]) ++ splitWsAux cs []
    else
      splitWsAux cs (c :: acc)

/-- Python `str.split()` (no separator argument). -/
def pySplitWs (s : String) : List String := splitWsAux s.data []

/-- Python `str.strip()`: drop leading and trailing whitespace. -/
def pyStrip (s : String) : String :=
  String.mk (((s.data.dropWhile isPySpace).reverse.dropWhile isPySpace).reverse)

/-- Tokenization `line.strip().split()` from src/dataset.py line 54. -/
def tokenizeLine (line : String) : List String := pySplitWs (pyStrip line)

/-- Accumulator loop of Python `str.split(sep)` for a one-character
separator: empty fields are kept and the empty string yields `[""]`. -/
def splitSepAux (sep : Char) : List Char → List Char → List String
  | [], acc => [String.mk acc.reverse]
  | c :: cs, acc =>
    if c = sep then String.mk acc.reverse :: splitSepAux sep cs []
    else splitSepAux sep cs (c :: acc)

/-- Python `str.split(sep)` for a one-character separator. -/
def pySplitChar (sep : Char) (s : String) : List String := splitSepAux sep s.data []

/-- Model of `os.path.dirname` (POSIX semantics). -/
def posixDirname (p : String) : String :=
  let cs := p.data
  let k : Nat :=
    match cs.reverse.findIdx? (· == '/') with
    | some r => cs.length - r
    | none => 0
  let head := cs.take k
  if head.isEmpty || head.all (· == '/') then String.mk head
  else String.mk ((head.reverse.dropWhile (· == '/')).reverse)

/-- Model of `os.path.join` (POSIX semantics, two arguments). -/
def posixJoin (a b : String) : String :=
  if b.data.head? = some '/' then b
  else if a.data.isEmpty || a.data.getLast? = some '/' then a ++ b
  else a ++ "/" ++ b

/-- Model of `np.array(rows)[:, 0]` on the list of per-line token lists: numpy forms
a 2-D array (so the first column exists) exactly when there is at least one
row and the rows have a uniform length of at least 1; any other shape makes
the slice raise. -/
def npCol0 (rows : List (List String)) : Option (List String) :=
  match rows with
  | [] => none
  | r0 :: rest =>
    if 1 ≤ r0.length ∧ ∀ r ∈ r0 :: rest, r.length = r0.length then
      some ((r0 :: rest).map (fun r => r.headD ""))
    else none

/-- The MjSynth label of each first token: `token.split("_")[1]`
(src/dataset.py line 58); `none` models the `IndexError` when a token has
no second `_`-field. -/
def secondFields : List String → Option (List String)
  | [] => some []
  | t :: ts =>
    match (pySplitChar '_' t).get? 1, secondFields ts with
    | some l, some ls => some (l :: ls)
    | _, _ => none

/-- Parsing of one annotation file (src/dataset.py lines 52-63): tokenize
every line, take the first column through numpy, derive the labels as the
second `_`-field of each first token, and join each first token with the
file's directory. -/
def parseAnnFile (dir : String) (fileLines : List String) :
    Option (List String × List String) :=
  match npCol0 (fileLines.map tokenizeLine) with
  | none => none
  | some toks =>
    match secondFields toks with
    | none => none
    | some labs => some (toks.map (fun t => posixJoin dir t), labs)

/-- Loop of `read_imagepaths_and_labels` over the comma-separated paths,
against a modelled file system mapping a path to its list of lines;
`none` models any uncaught exception (missing file, numpy raggedness,
missing `_`-field). -/
def readAnnPaths (fs : List (String × List String)) :
    List String → Option (List String × List String)
  | [] => some ([], [])
  | p :: ps =>
    match List.lookup p fs with
    | none => none
    | some fileLines =>
      match parseAnnFile (posixDirname p) fileLines, readAnnPaths fs ps with
      | some (is, ls), some (is2, ls2) => some (is ++ is2, ls ++ ls2)
      | _, _ => none

/-- The method `read_imagepaths_and_labels` (src/dataset.py lines 45-67) over a
modelled file system: split the argument on commas and concatenate the
per-file results, file order then line order. -/
def read_imagepaths_and_labels (fs : List (String × List String))
    (annPathArg : String) : Option (List String × List String) :=
  readAnnPaths fs (pySplitChar ',' annPathArg)

/-- Well-formedness of one annotation file's lines, under which the source
parser succeeds: at least one line, a uniform token count of at least one,
and a second `_`-field in every first token. -/
def annLinesOk (fileLines : List String) : Bool :=
  match fileLines.map tokenizeLine with
  | [] => false
  | r0 :: rest =>
    decide (1 ≤ r0.length) &&
    (r0 :: rest).all (fun r => r.length == r0.length) &&
    (r0 :: rest).all (fun r => decide (2 ≤ (pySplitChar '_' (r.headD "")).length))

/-- Helper: the decoded text of a line is the concatenation of the
per-position contributions recorded by `decodeLineSteps`. -/
theorem decodeLineSteps_join (table : List String) (blank : Int) (merge : Bool)
    (line : List Int) :
    ∀ prev : Int,
      decodeLineAux table blank merge prev line =
        Option.map joinAll (decodeLineSteps table blank merge prev line) := by
  induction line with
  | nil => intro prev; rfl
  | cons c rest ih =>
    intro prev
    simp only [decodeLineAux, decodeLineSteps]
    by_cases h1 : merge = true ∧ c = prev
    · simp only [if_pos h1, ih]
      cases decodeLineSteps table blank merge prev rest with
      | none => rfl
      | some l => simp [joinAll, String.empty_append]
    · simp only [if_neg h1]
      by_cases h2 : c = blank
      · simp only [if_pos h2, ih]
        cases decodeLineSteps table blank merge c rest with
        | none => rfl
        | some l => simp [joinAll, String.empty_append]
      · simp only [if_neg h2]
        cases hg : pyGet table c with
        | none => rfl
        | some s =>
          simp only [ih]
          cases decodeLineSteps table blank merge c rest with
          | none => rfl
          | some l => simp [joinAll]

/-- Helper: when the instrumented decode succeeds it records exactly one
contribution per input position. -/
theorem decodeLineSteps_length (table : List String) (blank : Int) (merge : Bool)
    (line : List Int) :
    ∀ (prev : Int) (steps : List String),
      decodeLineSteps table blank merge prev line = some steps →
      steps.length = line.length := by
  induction line with
  | nil =>
    intro prev steps h
    simp only [decodeLineSteps, Option.some.injEq] at h
    simp [← h]
  | cons c rest ih =>
    intro prev steps h
    simp only [decodeLineSteps] at h
    by_cases h1 : merge = true ∧ c = prev
    · rw [if_pos h1] at h
      cases hg : decodeLineSteps table blank merge prev rest with
      | none => rw [hg] at h; simp at h
      | some l =>
        rw [hg] at h
        simp only [Option.map_some', Option.some.injEq] at h
        simp [← h, ih prev l hg]
    · rw [if_neg h1] at h
      by_cases h2 : c = blank
      · rw [if_pos h2] at h
        cases hg : decodeLineSteps table blank merge c rest with
        | none => rw [hg] at h; simp at h
        | some l =>
          rw [hg] at h
          simp only [Option.map_some', Option.some.injEq] at h
          simp [← h, ih c l hg]
      · rw [if_neg h2] at h
        cases hp : pyGet table c with
        | none => rw [hp] at h; simp at h
        | some s =>
          rw [hp] at h
          cases hg : decodeLineSteps table blank merge c rest with
          | none => rw [hg] at h; simp at h
          | some l =>
            rw [hg] at h
            simp only [Option.map_some', Option.some.injEq] at h
            simp [← h, ih c l hg]

/-- Helper: a position holding the blank id always contributes the empty
string, whatever the merge flag. -/
theorem decodeLineSteps_blank (table : List String) (blank : Int) (merge : Bool)
    (line : List Int) :
    ∀ (prev : Int) (steps : List String),
      decodeLineSteps table blank merge prev line = some steps →
      ∀ (i : Nat) (hi : i < line.length) (hs : i < steps.length),
        line.get ⟨i, hi⟩ = blank → steps.get ⟨i, hs⟩ = "" := by
  induction line with
  | nil => intro prev steps h i hi; exact absurd hi (by simp)
  | cons c rest ih =>
    intro prev steps h i hi hs hb
    simp only [decodeLineSteps] at h
    by_cases h1 : merge = true ∧ c = prev
    · rw [if_pos h1] at h
      cases hg : decodeLineSteps table blank merge prev rest with
      | none => rw [hg] at h; simp at h
      | some l =>
        rw [hg] at h
        simp only [Option.map_some', Option.some.injEq] at h
        subst h
        cases i with
        | zero => rfl
        | succ j =>
          exact ih prev l hg j (by simpa using hi) (by simpa using hs)
            (by simpa using hb)
    · rw [if_neg h1] at h
      by_cases h2 : c = blank
      · rw [if_pos h2] at h
        cases hg : decodeLineSteps table blank merge c rest with
        | none => rw [hg] at h; simp at h
        | some l =>
          rw [hg] at h
          simp only [Option.map_some', Option.some.injEq] at h
          subst h
          cases i with
          | zero => rfl
          | succ j =>
            exact ih c l hg j (by simpa using hi) (by simpa using hs)
              (by simpa using hb)
      · rw [if_neg h2] at h
        cases hp : pyGet table c with
        | none => rw [hp] at h; simp at h
        | some s =>
          rw [hp] at h
          cases hg : decodeLineSteps table blank merge c rest with
          | none => rw [hg] at h; simp at h
          | some l =>
            rw [hg] at h
            simp only [Option.map_some', Option.some.injEq] at h
            subst h
            cases i with
            | zero => exact absurd (by simpa using hb) h2
            | succ j =>
              exact ih c l hg j (by simpa using hi) (by simpa using hs)
                (by simpa using hb)

/-- C4: blank ids are never emitted: whenever the decode of a line succeeds,
its text is the concatenation of one contribution per position, and every
position holding an id equal to `blank_index` contributes the empty string,
whether `merge_repeated` is `True` or `False`. -/
theorem blank_ids_never_emitted (table : List String) (blank : Int)
    (merge : Bool) (line : List Int) (steps : List String)
    (h : decodeLineSteps table blank merge (-1) line = some steps) :
    map_to_chars [line] table blank merge = some [joinAll steps] ∧
    steps.length = line.length ∧
    ∀ (i : Nat) (hi : i < line.length) (hs : i < steps.length),
      line.get ⟨i, hi⟩ = blank → steps.get ⟨i, hs⟩ = "" := by
  refine ⟨?_, decodeLineSteps_length table blank merge line (-1) steps h,
    decodeLineSteps_blank table blank merge line (-1) steps h⟩
  simp [map_to_chars, decodeLineSteps_join table blank merge line (-1), h]

/-- Witness for C4 at line `[0, 1, 0]`, table `[_, a]`, blank `0`,
`merge_repeated = True`: the blank positions 0 and 2 contribute `""`. -/
theorem blank_ids_never_emitted_witness :
    map_to_chars [[0, 1, 0]] ["_", "a"] 0 true = some [joinAll ["", "a", ""]] ∧
    (["", "a", ""] : List String).get ⟨0, by decide⟩ = "" ∧
    (["", "a", ""] : List String).get ⟨2, by decide⟩ = "" := by
  have h := blank_ids_never_emitted ["_", "a"] 0 true [0, 1, 0] ["", "a", ""]
    (by decide)
  exact ⟨h.1, h.2.2 0 (by decide) (by decide) (by decide),
    h.2.2 2 (by decide) (by decide) (by decide)⟩

/-- Helper: with `merge_repeated = False` the decode of a line fails as soon
as it contains a non-blank id whose table lookup raises. -/
theorem decodeLineAux_append_none (table : List String) (blank i : Int)
    (post : List Int) (hib : i ≠ blank) (hi : pyGet table i = none) :
    ∀ (pre : List Int) (prev : Int),
      decodeLineAux table blank false prev (pre ++ i :: post) = none := by
  intro pre
  induction pre with
  | nil => intro prev; simp [decodeLineAux, hib, hi]
  | cons c cs ih =>
    intro prev
    simp only [List.cons_append, decodeLineAux, false_and, if_false]
    by_cases hcb : c = blank
    · simp [hcb, ih]
    · cases hg : pyGet table c with
      | none => simp [hcb, hg]
      | some s => simp [hcb, hg, ih]

/-- C9: `map_to_chars` initialises `previous_char` to `-1`, so with
`merge_repeated = True` a line starting with the id `-1` has that first id
skipped as a repeat of the sentinel, without updating the state: the line
decodes exactly as if the leading `-1` were absent. -/
theorem sentinel_minus_one_always_precedes (table : List String) (blank : Int)
    (rest : List Int) (more : List (List Int)) :
    map_to_chars (((-1) :: rest) :: more) table blank true =
      map_to_chars (rest :: more) table blank true := by
  simp [map_to_chars, decodeLineAux]

/-- C2: with `merge_repeated = True`, consecutive equal ids collapse to a
single occurrence, and an intervening blank breaks adjacency because the
blank becomes the tracked previous id: `[a, a, blank, a]` decodes to the same
text as `[a, blank, a]`, namely the character of `a` twice, while `[a, a, a]`
decodes to that character once. -/
theorem merge_repeated_collapse (table : List String) (blank a : Int)
    (s : String) (ha : 0 ≤ a) (hs : pyGet table a = some s) (hab : a ≠ blank) :
    map_to_chars [[a, a, blank, a]] table blank true = some [s ++ s] ∧
    map_to_chars [[a, blank, a]] table blank true = some [s ++ s] ∧
    map_to_chars [[a, a, a]] table blank true = some [s] := by
  have h1 : ¬(a = -1) := by omega
  have h3 : ¬(blank = a) := fun h => hab h.symm
  refine ⟨?_, ?_, ?_⟩ <;>
    simp [map_to_chars, decodeLineAux, h1, hab, h3, hs]

/-- Witness for C2 at `table = [_, x]`, `a = 1`, `blank = 0`. -/
theorem merge_repeated_collapse_witness :
    map_to_chars [[1, 1, 0, 1]] ["_", "x"] 0 true = some ["xx"] ∧
    map_to_chars [[1, 0, 1]] ["_", "x"] 0 true = some ["xx"] ∧
    map_to_chars [[1, 1, 1]] ["_", "x"] 0 true = some ["x"] :=
  merge_repeated_collapse ["_", "x"] 0 1 "x" (by decide) (by decide) (by decide)

/-- Counterexample to C3 as stated: decoding the id sequence `[2]` against
the one-entry table `[a]` raises an `IndexError` (modelled as `none`) instead
of contributing the empty string. -/
theorem decode_out_of_range_cex :
    map_to_chars [[2]] ["a"] 0 false = none ∧
    map_to_chars [[2]] ["a"] 0 false ≠ some [""] := by decide

/-- C3 (amended): with `merge_repeated = False`, an id that is neither the
blank nor a valid Python index into the table makes `map_to_chars` raise an
`IndexError` that propagates to the caller (the decode returns no result),
rather than contributing an empty string. -/
theorem decode_out_of_range_raises (table : List String) (blank i : Int)
    (pre post : List Int) (hib : i ≠ blank) (hi : pyGet table i = none) :
    map_to_chars [pre ++ i :: post] table blank false = none := by
  simp [map_to_chars, decodeLineAux_append_none table blank i post hib hi pre (-1)]

/-- Witness for C3 (amended) at id `5` against the table `[a]`. -/
theorem decode_out_of_range_raises_witness :
    map_to_chars [([] : List Int) ++ (5 : Int) :: []] ["a"] 0 false = none :=
  decode_out_of_range_raises ["a"] 0 5 [] [] (by decide) (by decide)

/-- Helper: looking up a nonnegative in-range index with Python semantics
returns the list element at that index. -/
theorem pyGet_natCast (table : List String) (i : Nat) (hi : i < table.length) :
    pyGet table (i : Int) = some (table.get ⟨i, hi⟩) := by
  simp only [pyGet]
  rw [dif_pos ⟨by omega, by exact_mod_cast hi⟩]
  have ht : ((i : Int)).toNat = i := by omega
  simp [ht]

/-- Helper: `map_to_chars` on a single line is the decode of that line. -/
theorem map_to_chars_singleton (line : List Int) (table : List String)
    (blank : Int) (merge : Bool) :
    map_to_chars [line] table blank merge =
      Option.map (fun t => [t]) (decodeLineAux table blank merge (-1) line) := by
  cases h : decodeLineAux table blank merge (-1) line <;> simp [map_to_chars, h]

/-- C8: lookup of a character present in the (duplicate-free) vocabulary
table returns that character's 0-based line number, independently of
`blank_index`; lookup of an absent character returns `blank_index` and never
fails. -/
theorem table_lookup_semantics (vocab : List String) (blank : Int)
    (key : String) :
    (∀ (i : Nat) (hi : i < vocab.length), vocab.Nodup → vocab[i] = key →
      tableLookup vocab blank key = (i : Int)) ∧
    (∀ blank' : Int, key ∈ vocab →
      tableLookup vocab blank key = tableLookup vocab blank' key) ∧
    (key ∉ vocab → tableLookup vocab blank key = blank) := by
  refine ⟨?_, ?_, ?_⟩
  · intro i hi hnd hk
    have hfi : vocab.findIdx? (· == key) = some i := by
      rw [List.findIdx?_eq_some_iff_getElem]
      refine ⟨hi, by simp [hk], ?_⟩
      intro j hji
      simp only [Bool.not_eq_true, beq_eq_false_iff_ne, ne_eq]
      intro hj
      have : vocab[j] = vocab[i] := by rw [hj, hk]
      have := List.Nodup.getElem_inj_iff hnd |>.mp this
      omega
    simp [tableLookup, hfi]
  · intro blank' hk
    have hsome : (vocab.findIdx? (· == key)).isSome := by
      rw [List.findIdx?_isSome, List.any_eq_true]
      exact ⟨key, hk, by simp⟩
    cases hfi : vocab.findIdx? (· == key) with
    | none => rw [hfi] at hsome; simp at hsome
    | some i => simp [tableLookup, hfi]
  · intro hk
    have hfi : vocab.findIdx? (· == key) = none := by
      rw [List.findIdx?_eq_none_iff]
      intro x hx
      simp only [beq_eq_false_iff_ne, ne_eq]
      intro he
      exact hk (he ▸ hx)
    simp [tableLookup, hfi]

/-- Witness for C8 on the table `[a, b, c]` with blank index 7. -/
theorem table_lookup_semantics_witness :
    tableLookup ["a", "b", "c"] 7 "b" = 1 ∧
    tableLookup ["a", "b", "c"] 7 "b" = tableLookup ["a", "b", "c"] 0 "b" ∧
    tableLookup ["a", "b", "c"] 7 "z" = 7 := by
  have h := table_lookup_semantics ["a", "b", "c"] 7 "b"
  have h2 := table_lookup_semantics ["a", "b", "c"] 7 "z"
  exact ⟨h.1 1 (by decide) (by decide) (by decide), h.2.1 0 (by decide),
    h2.2.2 (by decide)⟩

/-- Counterexample to C1 as stated: with the one-line table `[a]` and blank
index 0 the label `a` is composed only of vocabulary characters, yet
encode-then-decode with `merge_repeated = False` loses it: the character's
line number equals the blank index, so the decode skips it. -/
theorem roundtrip_cex :
    map_to_chars [encodeLabel ["a"] 0 "a"] ["a"] 0 false = some [""] ∧
    map_to_chars [encodeLabel ["a"] 0 "a"] ["a"] 0 false ≠ some ["a"] := by
  decide

/-- Helper: decoding the encoded character list with `merge_repeated = False`
reproduces it, as long as every character occurs in the vocabulary with a
first-occurrence line number different from the blank index. -/
theorem decode_encode_chars (vocab : List String) (blank : Int) :
    ∀ (cs : List Char) (prev : Int),
      (∀ c ∈ cs, ∃ i : Nat,
        vocab.findIdx? (· == c.toString) = some i ∧ (i : Int) ≠ blank) →
      decodeLineAux vocab blank false prev
        (cs.map (fun c => tableLookup vocab blank c.toString)) =
        some (String.mk cs) := by
  intro cs
  induction cs with
  | nil => intro prev _; rfl
  | cons c rest ih =>
    intro prev h
    obtain ⟨i, hfi, hib⟩ := h c (List.mem_cons_self c rest)
    obtain ⟨hi, hpi, -⟩ := List.findIdx?_eq_some_iff_getElem.mp hfi
    have hlk : tableLookup vocab blank c.toString = (i : Int) := by
      simp [tableLookup, hfi]
    have hgc : vocab.get ⟨i, hi⟩ = c.toString := by
      simpa using hpi
    simp only [List.map_cons, decodeLineAux, false_and, if_false, hlk]
    rw [if_neg hib, pyGet_natCast vocab i hi,
      ih (i : Int) (fun d hd => h d (List.mem_cons_of_mem c hd)), hgc]
    show some (c.toString ++ String.mk rest) = some (String.mk (c :: rest))
    rfl

/-- C1 (amended): round-trip fidelity holds for every label composed only of
characters that occur in the vocabulary with a (first-occurrence) line
number different from `blank_index`: encoding the label and decoding the id
sequence with `merge_repeated = False` reproduces the label exactly.  (As
stated the claim fails when a label character sits at line `blank_index`:
its id is skipped as a blank, see the counterexample.) -/
theorem encode_decode_roundtrip (vocab : List String) (blank : Int)
    (label : String)
    (h : ∀ c ∈ label.data, ∃ i : Nat,
      vocab.findIdx? (· == c.toString) = some i ∧ (i : Int) ≠ blank) :
    map_to_chars [encodeLabel vocab blank label] vocab blank false =
      some [label] := by
  obtain ⟨data⟩ := label
  rw [map_to_chars_singleton]
  show Option.map (fun t => [t])
    (decodeLineAux vocab blank false (-1)
      (data.map (fun c => tableLookup vocab blank c.toString))) = some [⟨data⟩]
  rw [decode_encode_chars vocab blank data (-1) h]
  rfl

/-- Witness for C1 (amended) on the table `[_, a, b]`, blank 0, label `ab`. -/
theorem encode_decode_roundtrip_witness :
    map_to_chars [encodeLabel ["_", "a", "b"] 0 "ab"] ["_", "a", "b"] 0 false =
      some ["ab"] :=
  encode_decode_roundtrip ["_", "a", "b"] 0 "ab" (by
    intro c hc
    have hm : c ∈ ['a', 'b'] := hc
    simp only [List.mem_cons, List.not_mem_nil, or_false] at hm
    rcases hm with h | h
    · exact ⟨1, by rw [h]; decide, by decide⟩
    · exact ⟨2, by rw [h]; decide, by decide⟩)







/-- C5: exact-match scoring on the spec's example: the predicted sparse
batch densifies to `[[1,2,0],[3,0,0]]` and decodes to `[ab, c]`, the ground
truth densifies to `[[1,2,0],[3,3,0]]` and (without merging) decodes to
`[ab, cc]`, and the exact-match count is 1. -/
theorem score_example :
    sparseToDense ⟨[(0,0),(0,1),(1,0)], [1,2,3], (2,3)⟩ 0 = [[1,2,0],[3,0,0]] ∧
    sparseToDense ⟨[(0,0),(0,1),(1,0),(1,1)], [1,2,3,3], (2,3)⟩ 0 =
      [[1,2,0],[3,3,0]] ∧
    map_to_chars [[1,2,0],[3,0,0]] ["_","a","b","c"] 0 false =
      some ["ab","c"] ∧
    map_to_chars [[1,2,0],[3,3,0]] ["_","a","b","c"] 0 false =
      some ["ab","cc"] ∧
    map_and_count [⟨[(0,0),(0,1),(1,0)], [1,2,3], (2,3)⟩]
      ⟨[(0,0),(0,1),(1,0),(1,1)], [1,2,3,3], (2,3)⟩
      ["_","a","b","c"] 0 false = some 1 := by
  decide

/-- Helper: the counting loop is bounded by the length of either list. -/
theorem countMatches_le (xs : List String) :
    ∀ ys, countMatches xs ys ≤ min xs.length ys.length := by
  induction xs with
  | nil => intro ys; simp [countMatches]
  | cons x xs ih =>
    intro ys
    cases ys with
    | nil => simp [countMatches]
    | cons y ys =>
      simp only [countMatches, List.length_cons]
      have := ih ys
      by_cases h : x = y <;> simp [h] <;> omega

/-- Helper: the counting loop ignores rows past the shorter side. -/
theorem countMatches_take (xs : List String) :
    ∀ ys, countMatches xs ys =
      countMatches (xs.take ys.length) (ys.take xs.length) := by
  induction xs with
  | nil => intro ys; cases ys <;> rfl
  | cons x xs ih =>
    intro ys
    cases ys with
    | nil => rfl
    | cons y ys =>
      simp only [List.length_cons, List.take_succ_cons, countMatches]
      rw [ih ys]

/-- Helper: a successful decode yields one string per input row. -/
theorem map_to_chars_length (inputs : List (List Int)) (table : List String)
    (blank : Int) (merge : Bool) :
    ∀ ls, map_to_chars inputs table blank merge = some ls →
      ls.length = inputs.length := by
  induction inputs with
  | nil =>
    intro ls h
    simp only [map_to_chars, Option.some.injEq] at h
    simp [← h]
  | cons line rest ih =>
    intro ls h
    simp only [map_to_chars] at h
    split at h
    · rename_i t ls' ht hrest
      cases h
      simp [ih ls' hrest]
    · exact absurd h (by simp)

/-- Helper: the densified matrix has as many rows as the dense shape says. -/
theorem sparseToDense_length (sp : SparseTensor) (d : Int) :
    (sparseToDense sp d).length = sp.denseShape.1 := by
  simp [sparseToDense]

/-- C10: `map_and_count` pairs decoded prediction rows with ground-truth
rows by position, and `zip` iterates only over the first
min(prediction rows, truth rows) pairs: a returned count never exceeds the
smaller of the two densified batches' row counts, and the counting loop
gives the same result on the inputs truncated to each other's length. -/
theorem score_truncates_to_shorter (d0 : SparseTensor)
    (rest : List SparseTensor) (Y : SparseTensor) (mapper : List String)
    (blank : Int) (merge : Bool) (n : Nat)
    (h : map_and_count (d0 :: rest) Y mapper blank merge = some n) :
    n ≤ min d0.denseShape.1 Y.denseShape.1 ∧
    ∀ xs ys : List String, countMatches xs ys =
      countMatches (xs.take ys.length) (ys.take xs.length) := by
  refine ⟨?_, fun xs ys => countMatches_take xs ys⟩
  simp only [map_and_count] at h
  split at h
  · rename_i ds ys hd hy
    cases h
    have h1 := map_to_chars_length (sparseToDense d0 blank) mapper blank merge ds hd
    have h2 := map_to_chars_length (sparseToDense Y blank) mapper blank merge ys hy
    have := countMatches_le ds ys
    rw [h1, h2, sparseToDense_length, sparseToDense_length] at this
    exact this
  · exact absurd h (by simp)

/-- Witness for C10 with a one-row prediction batch and an empty truth
batch: the count 0 is bounded by min 1 0. -/
theorem score_truncates_to_shorter_witness :
    (0 : Nat) ≤ min 1 0 ∧
    countMatches ["a"] [] =
      countMatches ((["a"] : List String).take 0)
        (([] : List String).take 1) := by
  have h := score_truncates_to_shorter ⟨[], [], (1, 1)⟩ [] ⟨[], [], (0, 0)⟩
    ["a"] 0 false 0 (by decide)
  exact ⟨h.1, h.2 ["a"] []⟩

/-- Helper: batching then flattening returns the input list. -/
theorem chunkGo_join {B : Type} (bs : Nat) :
    ∀ (fuel : Nat) (l : List B), l.length ≤ fuel → (chunkGo bs fuel l).flatten = l := by
  intro fuel
  induction fuel with
  | zero =>
    intro l h
    cases l with
    | nil => rfl
    | cons x xs => simp at h
  | succ n ih =>
    intro l h
    cases l with
    | nil => rfl
    | cons x xs =>
      simp only [chunkGo, List.flatten_cons, List.cons_append]
      rw [ih (xs.drop (bs - 1)) (by
        simp only [List.length_cons] at h
        simp only [List.length_drop]
        omega)]
      rw [List.take_append_drop]

/-- Helper: flattening the batches of a list gives back the list. -/
theorem chunkList_join {B : Type} (bs : Nat) (l : List B) :
    (chunkList bs l).flatten = l :=
  chunkGo_join bs l.length l (Nat.le_refl _)

/-- Helper: mapping inside each batch commutes with flattening. -/
theorem join_map_map {A B : Type} (f : A → B) :
    ∀ L : List (List A), (L.map (List.map f)).flatten = L.flatten.map f := by
  intro L
  induction L with
  | nil => rfl
  | cons a as ih =>
    simp only [List.map_cons, List.flatten_cons, List.map_append, ih]

/-- Helper: kept plus dropped elements account for the whole input of a
`filterMap`. -/
theorem length_filterMap_add {A B : Type} (f : A → Option B) :
    ∀ l : List A,
      (l.filterMap f).length + (l.filter (fun x => (f x).isNone)).length =
        l.length := by
  intro l
  induction l with
  | nil => rfl
  | cons x xs ih =>
    cases hf : f x with
    | none =>
      simp only [List.filterMap_cons, List.filter_cons, hf, Option.isNone_none,
        if_pos, List.length_cons]
      omega
    | some b =>
      simp only [List.filterMap_cons, List.filter_cons, hf, Option.isNone_some,
        List.length_cons]
      simp only [Bool.false_eq_true, if_false]
      omega

/-- Helper: batching a 5-element list with batch size 2 gives batch sizes
2, 2, 1. -/
theorem chunkList_two_of_length_five {B : Type} (l : List B)
    (h : l.length = 5) : (chunkList 2 l).map List.length = [2, 2, 1] := by
  rcases l with _ | ⟨a, l⟩
  · simp at h
  rcases l with _ | ⟨b, l⟩
  · simp at h
  rcases l with _ | ⟨c, l⟩
  · simp only [List.length_cons, List.length_nil] at h; omega
  rcases l with _ | ⟨d, l⟩
  · simp only [List.length_cons, List.length_nil] at h; omega
  rcases l with _ | ⟨e, l⟩
  · simp only [List.length_cons, List.length_nil] at h; omega
  rcases l with _ | ⟨f, l⟩
  · rfl
  · simp only [List.length_cons] at h; omega

/-- C6: for a dataset of 5 samples with batch size 2 and no shuffle, one
pass of the pipeline yields batches of sizes [2, 2, 1] when every sample
decodes; in general the delivered samples are exactly the surviving samples
in order, so their total is 5 minus the number of decode failures and a
failed sample leaves no placeholder behind. -/
theorem batch_assembly_after_drops (I : Type)
    (decodeResize : String → Option I) (vocab : List String) (blank : Int)
    (samples : List (String × String)) (h5 : samples.length = 5) :
    ((∀ s ∈ samples, (decodeResize s.1).isSome) →
      (ocrBatches decodeResize vocab blank 2 samples).map List.length =
        [2, 2, 1]) ∧
    (ocrBatches decodeResize vocab blank 2 samples).flatten =
      samples.filterMap (fun s => (decodeResize s.1).map
        (fun img => (img, encodeLabel vocab blank s.2))) ∧
    ((ocrBatches decodeResize vocab blank 2 samples).flatten).length =
      5 - (samples.filter (fun s => (decodeResize s.1).isNone)).length := by
  have hfun : (fun s : String × String =>
      ((decodeResize s.1).map (fun img => (img, s.2))).map
        (fun p => (p.1, encodeLabel vocab blank p.2))) =
      (fun s : String × String => (decodeResize s.1).map
        (fun img => (img, encodeLabel vocab blank s.2))) := by
    funext s
    cases decodeResize s.1 <;> rfl
  have hjoin : (ocrBatches decodeResize vocab blank 2 samples).flatten =
      samples.filterMap (fun s => (decodeResize s.1).map
        (fun img => (img, encodeLabel vocab blank s.2))) := by
    show ((chunkList 2 _).map (List.map _)).flatten = _
    rw [join_map_map, chunkList_join, List.map_filterMap, hfun]
  have hcount := length_filterMap_add (fun s : String × String =>
    (decodeResize s.1).map (fun img => (img, encodeLabel vocab blank s.2)))
    samples
  have hfilter : samples.filter (fun s =>
      ((decodeResize s.1).map
        (fun img => (img, encodeLabel vocab blank s.2))).isNone) =
      samples.filter (fun s => (decodeResize s.1).isNone) := by
    apply List.filter_congr
    intro s _
    cases decodeResize s.1 <;> rfl
  refine ⟨?_, hjoin, ?_⟩
  · intro hall
    have h0 : samples.filter (fun s : String × String =>
        ((decodeResize s.1).map (fun img => (img, s.2))).isNone) = [] := by
      rw [List.filter_eq_nil_iff]
      intro s hs
      have hsome := hall s hs
      cases hd : decodeResize s.1 with
      | none => rw [hd] at hsome; simp at hsome
      | some img => simp [hd]
    have hlen := length_filterMap_add (fun s : String × String =>
      (decodeResize s.1).map (fun img => (img, s.2))) samples
    rw [h0] at hlen
    simp only [List.length_nil, Nat.add_zero, h5] at hlen
    show ((chunkList 2 _).map (List.map _)).map List.length = [2, 2, 1]
    rw [List.map_map]
    have hcomp : (List.length ∘ List.map (fun p : I × String =>
        (p.1, encodeLabel vocab blank p.2))) =
        (List.length : List (I × String) → Nat) := by
      funext b
      simp
    rw [hcomp]
    exact chunkList_two_of_length_five _ hlen
  · rw [hjoin]
    rw [hfilter] at hcount
    omega

/-- Witness for C6 on five concrete samples that all decode. -/
theorem batch_assembly_after_drops_witness :
    (ocrBatches (fun p => if p = "bad" then none else some 0) ["x"] 0 2
      [("p1", "x"), ("p2", "x"), ("p3", "x"), ("p4", "x"), ("p5", "x")]).map
        List.length = [2, 2, 1] ∧
    ((ocrBatches (fun p => if p = "bad" then none else some 0) ["x"] 0 2
      [("p1", "x"), ("p2", "x"), ("p3", "x"), ("p4", "x"), ("p5", "x")]).flatten).length =
      5 - (([("p1", "x"), ("p2", "x"), ("p3", "x"), ("p4", "x"), ("p5", "x")] :
        List (String × String)).filter (fun s =>
          ((fun p => if p = "bad" then (none : Option Nat) else some 0) s.1).isNone)).length := by
  have h := batch_assembly_after_drops Nat
    (fun p => if p = "bad" then none else some 0) ["x"] 0
    [("p1", "x"), ("p2", "x"), ("p3", "x"), ("p4", "x"), ("p5", "x")]
    (by decide)
  exact ⟨h.1 (by decide), h.2.2⟩


/-- Helper: the second `_`-field exists exactly as `getD` describes when the
split has at least two fields. -/
theorem secondFields_eq (toks : List String)
    (h : ∀ t ∈ toks, 2 ≤ (pySplitChar '_' t).length) :
    secondFields toks =
      some (toks.map (fun t => (pySplitChar '_' t).getD 1 "")) := by
  induction toks with
  | nil => rfl
  | cons t ts ih =>
    have hlt : 2 ≤ (pySplitChar '_' t).length := h t (List.mem_cons_self t ts)
    have hget : (pySplitChar '_' t).get? 1 =
        some ((pySplitChar '_' t).getD 1 "") := by
      rcases hsp : pySplitChar '_' t with _ | ⟨a, _ | ⟨b, l2⟩⟩
      · rw [hsp] at hlt; simp at hlt
      · rw [hsp] at hlt; simp at hlt
      · rfl
    simp only [secondFields, hget,
      ih (fun u hu => h u (List.mem_cons_of_mem t hu)), List.map_cons]

/-- Helper: on a well-formed annotation file the source parser returns one
sample per line: the first token joined with the directory, and the second
`_`-field of the first token as label. -/
theorem parseAnnFile_eq (dir : String) (fileLines : List String)
    (h : annLinesOk fileLines = true) :
    parseAnnFile dir fileLines =
      some (fileLines.map (fun line =>
          posixJoin dir ((tokenizeLine line).headD "")),
        fileLines.map (fun line =>
          (pySplitChar '_' ((tokenizeLine line).headD "")).getD 1 "")) := by
  unfold annLinesOk at h
  cases hc : fileLines.map tokenizeLine with
  | nil => rw [hc] at h; simp at h
  | cons r0 rest =>
    rw [hc] at h
    simp only [Bool.and_eq_true, decide_eq_true_eq, List.all_eq_true,
      beq_iff_eq] at h
    obtain ⟨⟨h1, h2⟩, h3⟩ := h
    have h3' : ∀ t ∈ (r0 :: rest).map (fun r => r.headD ""),
        2 ≤ (pySplitChar '_' t).length := by
      intro t ht
      rw [List.mem_map] at ht
      obtain ⟨r, hr, rfl⟩ := ht
      exact h3 r hr
    have htoks : ∀ g : String → String,
        ((r0 :: rest).map (fun r => r.headD "")).map g =
          fileLines.map (fun line => g ((tokenizeLine line).headD "")) := by
      intro g
      rw [← hc, List.map_map, List.map_map]
      rfl
    have hcond : 1 ≤ r0.length ∧ ∀ r ∈ r0 :: rest, r.length = r0.length :=
      ⟨h1, h2⟩
    simp only [parseAnnFile, hc, npCol0, if_pos hcond,
      secondFields_eq _ h3', Option.some.injEq]
    rw [htoks (fun t => posixJoin dir t),
      htoks (fun t => (pySplitChar '_' t).getD 1 "")]

/-- Helper: the loop over the comma-separated annotation paths concatenates
the per-file samples in file order then line order. -/
theorem readAnnPaths_eq (fs : List (String × List String)) :
    ∀ paths : List String,
      (∀ p ∈ paths, ∃ fileLines, List.lookup p fs = some fileLines ∧
        annLinesOk fileLines = true) →
      readAnnPaths fs paths = some (
        paths.flatMap (fun p => ((List.lookup p fs).getD []).map (fun line =>
          posixJoin (posixDirname p) ((tokenizeLine line).headD ""))),
        paths.flatMap (fun p => ((List.lookup p fs).getD []).map (fun line =>
          (pySplitChar '_' ((tokenizeLine line).headD "")).getD 1 ""))) := by
  intro paths
  induction paths with
  | nil => intro _; rfl
  | cons p ps ih =>
    intro h
    obtain ⟨fileLines, hlk, hok⟩ := h p (List.mem_cons_self p ps)
    have hrec := ih (fun q hq => h q (List.mem_cons_of_mem p hq))
    simp only [readAnnPaths, hlk,
      parseAnnFile_eq (posixDirname p) fileLines hok, hrec, List.flatMap_cons,
      Option.getD_some]

/-- Counterexample to C7 as stated: an annotation file holding one sample
line and one empty line makes numpy raise on the ragged token array, so
parsing raises instead of returning one sample per non-empty line. -/
theorem mjsynth_parsing_cex :
    read_imagepaths_and_labels
      [("ann.txt", ["1_hello_2.jpg 33", ""])] "ann.txt" = none ∧
    read_imagepaths_and_labels
      [("ann.txt", ["1_hello_2.jpg 33", ""])] "ann.txt" ≠
      some (["1_hello_2.jpg"], ["hello"]) := by decide

/-- C7 (amended): for every comma-separated list of annotation file paths
whose files exist and are well formed (no line may be empty or change the
token count, since numpy requires a uniform token count of at least one,
and every first token must have a second `_`-field), parsing returns one
sample per line: the label is the second field of splitting the line's
first whitespace token on `_`, the image path is the first token joined
with the file's directory, and the per-file results are concatenated in
file order then line order, with no deduplication. -/
theorem mjsynth_parsing (fs : List (String × List String))
    (annPathArg : String)
    (h : ∀ p ∈ pySplitChar ',' annPathArg, ∃ fileLines,
      List.lookup p fs = some fileLines ∧ annLinesOk fileLines = true) :
    read_imagepaths_and_labels fs annPathArg = some (
      (pySplitChar ',' annPathArg).flatMap (fun p =>
        ((List.lookup p fs).getD []).map (fun line =>
          posixJoin (posixDirname p) ((tokenizeLine line).headD ""))),
      (pySplitChar ',' annPathArg).flatMap (fun p =>
        ((List.lookup p fs).getD []).map (fun line =>
          (pySplitChar '_' ((tokenizeLine line).headD "")).getD 1 ""))) :=
  readAnnPaths_eq fs (pySplitChar ',' annPathArg) h

/-- Witness for C7 (amended) on one two-line MjSynth-style file. -/
theorem mjsynth_parsing_witness :
    read_imagepaths_and_labels
      [("data/ann.txt", ["1_hello_2.jpg 33", "4_world_5.jpg 66"])]
      "data/ann.txt" =
      some (["data/1_hello_2.jpg", "data/4_world_5.jpg"],
        ["hello", "world"]) := by
  have h := mjsynth_parsing
    [("data/ann.txt", ["1_hello_2.jpg 33", "4_world_5.jpg 66"])]
    "data/ann.txt" (by
      intro p hp
      have hps : pySplitChar ',' "data/ann.txt" = ["data/ann.txt"] := by decide
      rw [hps, List.mem_singleton] at hp
      subst hp
      exact ⟨["1_hello_2.jpg 33", "4_world_5.jpg 66"], by decide, by decide⟩)
  exact h.trans (by decide)

end CRNN
